import Mathlib

/-!
Verification of the forms search-and-pagination controller
(`forms-list` component and `forms-dashboard.component.tsx`).

The definitions below are a shallow embedding of the component logic:

* the fuzzy match scorer and filter (`fuzzy` npm library, as invoked by
  `filteredForms` in the forms-list component, lines 118-137);
* the local filter pipeline `filteredForms` itself;
* the section grouping `sections` of `forms-dashboard.component.tsx`
  (lines 124-131) and the dashboard's render branching (lines 134-196);
* a state machine for the intersection-observer load trigger
  (lines 72-100 and the sentinel render at lines 212-221);
* the lodash trailing-edge debounce used by both `handleSearch`
  definitions (500 ms);
* a lifecycle machine for unmount/teardown behaviour.

JavaScript strings become `String`, `undefined`/optional values become
`Option`, JS stable `Array.prototype.sort` becomes `List.insertionSort`
with a total relation, and the `Infinity` score that the fuzzy library
assigns to exact matches becomes `⊤ : WithTop ℕ`.
-/

namespace FormsApp

/-- Model of the `Form` record: only the fields the controller reads
(`uuid`, `name`, `display`, the latter optional as in the source types). -/
structure Form where
  uuid : String
  name : String
  display : Option String
deriving DecidableEq, Repr

/-- Model of `CompletedFormInfo` restricted to the field the filtering and
grouping logic reads (`formInfo.form`). -/
structure CompletedFormInfo where
  form : Form
deriving DecidableEq, Repr

/-- `formInfo.form.display ?? formInfo.form.name` — the extraction key used
by the fuzzy filter (forms-list line 134). -/
def extractKey (fi : CompletedFormInfo) : String :=
  fi.form.display.getD fi.form.name

/-!
### The fuzzy scorer (`fuzzy.match` from the `fuzzy` npm package)

`fuzzy.match(pattern, string)` walks the string once; each character that
matches the next pattern character contributes `currScore := 2*currScore + 1`
(consecutive matches grow superlinearly), a non-matching character resets
`currScore` to 0; `totalScore` accumulates `currScore` at every position.
The whole pattern must be consumed for a match.  Comparison is on the
lowercased string and lowercased pattern (the default `caseSensitive: false`),
and an exact equality between the original string and the *lowercased*
pattern upgrades the score to `Infinity`.
-/

/-- The scoring loop of `fuzzy.match`: arguments are the remaining
(lowercased) pattern, the remaining (lowercased) string characters, the
current consecutive-match score and the accumulated total.  Returns whether
the pattern was fully consumed, and the total score. -/
def fuzzyLoop : List Char → List Char → Nat → Nat → Bool × Nat
  | pat, [], _, total => (pat.isEmpty, total)
  | pat, c :: cs, curr, total =>
    match pat with
    | [] => fuzzyLoop [] cs 0 total
    | p :: ps =>
      if c = p then fuzzyLoop ps cs (2 * curr + 1) (total + (2 * curr + 1))
      else fuzzyLoop (p :: ps) cs 0 total

/-- Character-wise lowercasing, the model of JS `toLowerCase` (equal to
`String.toLower`, but defined by structural `List.map` so that it reduces
definitionally). -/
def toLowerStr (s : String) : String :=
  ⟨s.data.map Char.toLower⟩

/-- `fuzzy.match(pattern, s)` reduced to its score: `none` when the pattern
does not match, `some ⊤` when `s === pattern.toLowerCase()` (the library's
`Infinity` case — note the library compares the original string with the
lowercased pattern), otherwise the accumulated total score. -/
def matchScore (pattern s : String) : Option (WithTop Nat) :=
  let pat := toLowerStr pattern
  let res := fuzzyLoop pat.data (toLowerStr s).data 0 0
  if res.1 then some (if s = pat then ⊤ else (res.2 : WithTop Nat)) else none

/-- One entry of `fuzzy.filter`'s intermediate result list:
`{index, original, score}` (the `string`/rendered field is dropped,
nothing downstream reads it). -/
structure Entry where
  idx : Nat
  item : CompletedFormInfo
  score : WithTop Nat
deriving DecidableEq, Repr

/-- The `reduce` step of `fuzzy.filter`: every element whose extracted key
matches the pattern yields an entry carrying its original index. -/
def matchedEntriesAux (term : String) : Nat → List CompletedFormInfo → List Entry
  | _, [] => []
  | i, x :: xs =>
    match matchScore term (extractKey x) with
    | some sc => ⟨i, x, sc⟩ :: matchedEntriesAux term (i + 1) xs
    | none => matchedEntriesAux term (i + 1) xs

/-- The matched entries of a list, indices starting at 0. -/
def matchedEntries (term : String) (l : List CompletedFormInfo) : List Entry :=
  matchedEntriesAux term 0 l

/-- The comparator of `fuzzy.filter`'s internal sort:
`b.score - a.score`, ties broken by `a.index - b.index` — i.e. score
descending, then original index ascending. -/
def rkRel (a b : Entry) : Prop :=
  b.score < a.score ∨ (a.score = b.score ∧ a.idx ≤ b.idx)

/-- The comparator of the extra sort in forms-list line 135:
`(r1, r2) => r2.score - r1.score` — score descending only (a stable sort,
so modelled by `insertionSort`, which keeps earlier elements first on ties). -/
def rsRel (a b : Entry) : Prop :=
  b.score ≤ a.score

instance : DecidableRel rkRel := fun a b => by
  unfold rkRel; infer_instance

instance : DecidableRel rsRel := fun a b => by
  unfold rsRel; infer_instance

instance : IsTotal Entry rkRel where
  total a b := by
    rcases lt_trichotomy a.score b.score with h | h | h
    · exact Or.inr (Or.inl h)
    · rcases Nat.le_total a.idx b.idx with hi | hi
      · exact Or.inl (Or.inr ⟨h, hi⟩)
      · exact Or.inr (Or.inr ⟨h.symm, hi⟩)
    · exact Or.inl (Or.inl h)

instance : IsTrans Entry rkRel where
  trans a b c hab hbc := by
    rcases hab with h₁ | ⟨he₁, hi₁⟩
    · rcases hbc with h₂ | ⟨he₂, _⟩
      · exact Or.inl (h₂.trans h₁)
      · exact Or.inl (he₂ ▸ h₁)
    · rcases hbc with h₂ | ⟨he₂, hi₂⟩
      · exact Or.inl (he₁ ▸ h₂)
      · exact Or.inr ⟨he₁.trans he₂, hi₁.trans hi₂⟩

instance : IsTotal Entry rsRel where
  total a b := le_total b.score a.score

instance : IsTrans Entry rsRel where
  trans _ _ _ hab hbc := hbc.trans hab

/-- `fuzzy.filter(term, l, extract)` followed by its internal
`(score desc, index asc)` sort. -/
def fuzzyFilterRanked (term : String) (l : List CompletedFormInfo) : List Entry :=
  List.insertionSort rkRel (matchedEntries term l)

/-- The full local pipeline of forms-list lines 133-136:
`fuzzy.filter(...).sort((r1, r2) => r2.score - r1.score).map(r => r.original)`. -/
def localPipeline (term : String) (l : List CompletedFormInfo) : List CompletedFormInfo :=
  (List.insertionSort rsRel (fuzzyFilterRanked term l)).map Entry.item

/-- `filteredForms` (forms-list lines 118-137).  `onSearch` is the presence
of the remote-search callback; `completedForms` is `none` when the prop is
`undefined`.  Branch order mirrors the source:
server-side passthrough, empty-term bypass, absent/empty guard, fuzzy path. -/
def filteredForms (onSearch : Bool) (searchTerm : String)
    (completedForms : Option (List CompletedFormInfo)) :
    Option (List CompletedFormInfo) :=
  if onSearch = true ∧ searchTerm ≠ "" then completedForms
  else if searchTerm = "" then completedForms
  else
    match completedForms with
    | none => some []
    | some [] => some []
    | some l => some (localPipeline searchTerm l)

/-!
### Dashboard: section grouping and render branching
(`forms-dashboard.component.tsx`)
-/

/-- One element of `config.formSections`: a section name and its matcher
strings (`formSection.forms`). -/
structure FormSection where
  name : String
  forms : List String
deriving DecidableEq, Repr

/-- The predicate of the dashboard's `forms?.filter` (lines 127-129):
`formSection.forms.some(fc => formInfo.form.uuid === fc || formInfo.form.name === fc)`. -/
def matchesSection (sec : FormSection) (fi : CompletedFormInfo) : Bool :=
  sec.forms.any fun fc => fi.form.uuid == fc || fi.form.name == fc

/-- `forms?.filter(...)` for one section: `none` when `forms` is `undefined`. -/
def availableFormsOf (sec : FormSection) (forms : Option (List CompletedFormInfo)) :
    Option (List CompletedFormInfo) :=
  forms.map fun l => l.filter (matchesSection sec)

/-- `sections` (dashboard lines 124-131):
`config.formSections?.map(fs => ({...fs, availableForms: forms?.filter(...)}))`.
`none` when `config.formSections` is `undefined`. -/
def sectionsOf (formSections : Option (List FormSection))
    (forms : Option (List CompletedFormInfo)) :
    Option (List (FormSection × Option (List CompletedFormInfo))) :=
  formSections.map fun secs => secs.map fun sec => (sec, availableFormsOf sec forms)

/-- One rendered `FormsList` instance: the `sectionName` prop (absent on the
unsectioned path) and the `completedForms` prop it receives. -/
structure ListInstance where
  sectionName : Option String
  completedForms : Option (List CompletedFormInfo)
deriving DecidableEq, Repr

/-- The dashboard's possible render outcomes. -/
inductive DashboardRender
  | searching
  | emptyState
  | lists (xs : List ListInstance)
deriving DecidableEq, Repr

/-- The runtime failure the render can hit: reading `.length` of
`undefined`. -/
inductive RenderError
  | typeError
deriving DecidableEq, Repr

/-- `forms?.length === 0`: `false` when `forms` is `undefined`
(`undefined === 0` is false in JS). -/
def formsLenZero (forms : Option (List CompletedFormInfo)) : Bool :=
  match forms with
  | some l => l.isEmpty
  | none => false

/-- The dashboard render pipeline (lines 134-196): the `isSearching` early
return, the empty-state early return, then the `sections.length === 0`
branch.  When `sectionsOf` is `none` (absent `formSections`), reading
`.length` throws, modelled as `Except.error .typeError`. -/
def renderDashboard (isSearching isLoading isValidating : Bool)
    (forms : Option (List CompletedFormInfo))
    (formSections : Option (List FormSection)) :
    Except RenderError DashboardRender :=
  if isSearching = true then .ok .searching
  else if (formsLenZero forms && !isSearching && !isLoading && !isValidating) = true then
    .ok .emptyState
  else
    match sectionsOf formSections forms with
    | none => .error .typeError
    | some secs =>
      if secs.length = 0 then .ok (.lists [⟨none, forms⟩])
      else .ok (.lists (secs.map fun p => ⟨some p.1.name, p.2⟩))

/-!
### IncrementalLoadTrigger (forms-list lines 72-100, 212-221)

The intersection-observer effect creates an observer only when
`enableInfiniteScrolling && loadMore && hasMore`; its callback fires
`loadMore()` when the sentinel intersects and `isValidating` is false.
The sentinel `div` is rendered only inside the infinite-scrolling branch
and only while `hasMore` holds.  Calling `loadMore` starts a load, setting
the in-flight flag `isValidating`; a later completion clears it (the effect
re-subscribes on every `isValidating` change, so the callback always tests
the current flag).
-/

/-- The guard of the observer effect (lines 73-75): `enableInfiniteScrolling`,
existence of the `loadMore` callback, `hasMore`. -/
def observerGuard (enable hasLoadMoreCb hasMore : Bool) : Bool :=
  enable && hasLoadMoreCb && hasMore

/-- The observer callback's fire condition (lines 79-83):
`first.isIntersecting && !isValidating`. -/
def cbFires (isIntersecting isValidating : Bool) : Bool :=
  isIntersecting && !isValidating

/-- Whether the sentinel `div` is rendered: the infinite-scrolling branch
(line 200) with the `hasMore` guard (line 212); `earlyReturn` covers the
loading/empty early returns of lines 167-198. -/
def sentinelRendered (earlyReturn enable hasMore : Bool) : Bool :=
  !earlyReturn && enable && hasMore

/-- Whether some observer is observing the sentinel: the effect must have
created one and the sentinel must be rendered. -/
def observing (earlyReturn enable hasLoadMoreCb hasMore : Bool) : Bool :=
  observerGuard enable hasLoadMoreCb hasMore && sentinelRendered earlyReturn enable hasMore

/-- Events seen by the trigger: a sentinel visibility transition (with its
`isIntersecting` flag), or completion of an in-flight load (the source's
`isValidating` dropping back to `false`). -/
inductive TEv
  | visible (isIntersecting : Bool)
  | loadDone
deriving DecidableEq, Repr

/-- Run of the trigger: `active` is the (fixed) observer guard, the `Bool`
state is the in-flight flag (`isValidating`).  Each event yields a pair
`(in-flight flag before the event, whether loadMore() was invoked)`.
Invoking `loadMore` sets the flag; `loadDone` clears it. -/
def runTrigger (active : Bool) : Bool → List TEv → List (Bool × Bool)
  | _, [] => []
  | v, TEv.visible inter :: evs =>
    if active && cbFires inter v then (v, true) :: runTrigger active true evs
    else (v, false) :: runTrigger active v evs
  | v, TEv.loadDone :: evs => (v, false) :: runTrigger active false evs

/-!
### Debounced search commit (forms-list lines 62-69, dashboard lines 117-122)

Both `handleSearch` definitions are `debounce(body, 500)` — a lodash
trailing-edge debounce: a call schedules the body to run with its argument
500 ms later, and any earlier pending call is superseded.  On a time-stamped
submission trace, submission `i` commits exactly when the next submission is
at least 500 ms later (or there is none and time runs out).
-/

/-- Committed terms of a trailing-edge debounce over a time-ordered
submission trace `(time, term)`.  A submission survives when the next one
arrives `wait` or more milliseconds later; the final submission always
commits once time runs out. -/
def debounceCommits (wait : Nat) : List (Nat × String) → List String
  | [] => []
  | [(_, s)] => [s]
  | (t₁, s₁) :: (t₂, s₂) :: rest =>
    if t₁ + wait ≤ t₂ then s₁ :: debounceCommits wait ((t₂, s₂) :: rest)
    else debounceCommits wait ((t₂, s₂) :: rest)

/-!
### Component lifecycle / teardown (forms-list)

On unmount React runs the observer effect's cleanup (lines 95-99), which
disconnects the observer.  The `handleSearch` debounce is created by
`useMemo` with no corresponding cleanup: nothing in the source cancels a
pending debounce timer, so a timer pending at unmount still fires and runs
the debounced body (`setSearchTerm` — a no-op on an unmounted component —
and `onSearch?.(term)`).
-/

/-- Lifecycle state: mounted flag, the pending debounce timer (with the
latest submitted term), whether the observer is connected, and the
in-flight load flag. -/
structure CompState where
  mounted : Bool
  pending : Option String
  observerOn : Bool
  inFlight : Bool
deriving DecidableEq, Repr

/-- Lifecycle events: a search input change (`handleSearch` call), unmount,
the debounce timer elapsing, a sentinel visibility transition, and load
completion. -/
inductive CEv
  | submit (t : String)
  | unmount
  | timerFire
  | visible (isIntersecting : Bool)
  | loadDone
deriving DecidableEq, Repr

/-- Downstream calls the component can make: the debounced commit body
(which invokes `onSearch` when supplied) and the `loadMore` callback. -/
inductive Call
  | commit (t : String)
  | loadMoreCall
deriving DecidableEq, Repr

/-- One lifecycle step, returning the next state and the downstream calls
made.  `unmount` disconnects the observer but leaves `pending` untouched
(the source never cancels the debounce); `timerFire` runs the debounced
body whether or not the component is still mounted. -/
def stepComp (s : CompState) : CEv → CompState × List Call
  | CEv.submit t => if s.mounted then ({ s with pending := some t }, []) else (s, [])
  | CEv.unmount => ({ s with mounted := false, observerOn := false }, [])
  | CEv.timerFire =>
    match s.pending with
    | some t => ({ s with pending := none }, [Call.commit t])
    | none => (s, [])
  | CEv.visible inter =>
    if s.observerOn && cbFires inter s.inFlight then
      ({ s with inFlight := true }, [Call.loadMoreCall])
    else (s, [])
  | CEv.loadDone => ({ s with inFlight := false }, [])

/-- Run of the lifecycle machine, collecting the calls made at each step. -/
def runComp (s : CompState) : List CEv → List (List Call)
  | [] => []
  | e :: evs => (stepComp s e).2 :: runComp (stepComp s e).1 evs

/-- A freshly mounted component with an active observer, no pending timer,
no load in flight. -/
def initComp : CompState :=
  ⟨true, none, true, false⟩

/-- All downstream calls made strictly after the first `unmount` event when
running from state `s` (helper for `callsAfterDispose`). -/
def callsAfterDisposeAux (s : CompState) : List CEv → List Call
  | [] => []
  | CEv.unmount :: rest => (runComp (stepComp s CEv.unmount).1 rest).flatten
  | e :: rest => callsAfterDisposeAux (stepComp s e).1 rest

/-- All downstream calls made strictly after the first `unmount` event of a
trace starting from a freshly mounted component (the claim's "advancing the
timer / firing a visibility event after disposal"). -/
def callsAfterDispose (evs : List CEv) : List Call :=
  callsAfterDisposeAux initComp evs

/-- Reassignment of consecutive indices starting at `n` to a list of
entries, keeping items and scores — the shape `fuzzy.filter`'s reduce step
produces when run over a list whose every element matches. -/
def reindex : Nat → List Entry → List Entry
  | _, [] => []
  | n, e :: es => ⟨n, e.item, e.score⟩ :: reindex (n + 1) es

/-!
## Theorems

### Helper lemmas about the trigger state machine
-/

theorem runTrigger_inactive (v : Bool) (evs : List TEv) :
    ∀ p ∈ runTrigger false v evs, p.2 = false := by
  induction evs generalizing v with
  | nil => intro p hp; simp [runTrigger] at hp
  | cons e rest ih =>
    intro p hp
    cases e with
    | visible inter =>
      simp only [runTrigger, Bool.false_and, Bool.false_eq_true, if_false,
        List.mem_cons] at hp
      rcases hp with rfl | hp
      · rfl
      · exact ih v p hp
    | loadDone =>
      simp only [runTrigger, List.mem_cons] at hp
      rcases hp with rfl | hp
      · rfl
      · exact ih false p hp

theorem runTrigger_fire_flag_false (active : Bool) (evs : List TEv) :
    ∀ (v : Bool) (m : Nat) (pre : Bool),
      (runTrigger active v evs)[m]? = some (pre, true) → pre = false := by
  induction evs with
  | nil => intro v m pre h; simp [runTrigger] at h
  | cons e rest ih =>
    intro v m pre h
    cases e with
    | visible inter =>
      by_cases hc : (active && cbFires inter v) = true
      · rw [runTrigger, if_pos hc] at h
        cases m with
        | zero =>
          simp only [List.getElem?_cons_zero, Option.some.injEq, Prod.mk.injEq] at h
          have hv : v = false := by
            have := hc
            simp only [cbFires, Bool.and_eq_true, Bool.not_eq_true'] at this
            exact this.2.2
          exact h.1 ▸ hv
        | succ m' =>
          rw [List.getElem?_cons_succ] at h
          exact ih true m' pre h
      · rw [runTrigger, if_neg hc] at h
        cases m with
        | zero => simp at h
        | succ m' =>
          rw [List.getElem?_cons_succ] at h
          exact ih v m' pre h
    | loadDone =>
      rw [runTrigger] at h
      cases m with
      | zero => simp at h
      | succ m' =>
        rw [List.getElem?_cons_succ] at h
        exact ih false m' pre h

theorem runTrigger_fire_from_inflight (active : Bool) (evs : List TEv) :
    ∀ (m : Nat) (pre : Bool),
      (runTrigger active true evs)[m]? = some (pre, true) →
      TEv.loadDone ∈ evs.take m := by
  induction evs with
  | nil => intro m pre h; simp [runTrigger] at h
  | cons e rest ih =>
    intro m pre h
    cases e with
    | visible inter =>
      have hc : (active && cbFires inter true) = false := by
        simp [cbFires]
      rw [runTrigger, if_neg (by simp [hc])] at h
      cases m with
      | zero => simp at h
      | succ m' =>
        rw [List.getElem?_cons_succ] at h
        rw [List.take_succ_cons]
        exact List.mem_cons_of_mem _ (ih m' pre h)
    | loadDone =>
      cases m with
      | zero => rw [runTrigger] at h; simp at h
      | succ m' =>
        rw [List.take_succ_cons]
        exact List.mem_cons_self _ _

theorem runTrigger_second_fire (active : Bool) (evs : List TEv) :
    ∀ (v : Bool) (i j : Nat) (pi pj : Bool), i < j →
      (runTrigger active v evs)[i]? = some (pi, true) →
      (runTrigger active v evs)[j]? = some (pj, true) →
      TEv.loadDone ∈ (evs.take j).drop (i + 1) := by
  induction evs with
  | nil => intro v i j pi pj hij hi hj; simp [runTrigger] at hi
  | cons e rest ih =>
    intro v i j pi pj hij hi hj
    obtain ⟨j', rfl⟩ : ∃ j', j = j' + 1 := ⟨j - 1, by omega⟩
    cases e with
    | visible inter =>
      by_cases hc : (active && cbFires inter v) = true
      · rw [runTrigger, if_pos hc] at hi hj
        rw [List.getElem?_cons_succ] at hj
        cases i with
        | zero =>
          rw [List.take_succ_cons, List.drop_succ_cons, List.drop_zero]
          exact runTrigger_fire_from_inflight active rest j' pj hj
        | succ i' =>
          rw [List.getElem?_cons_succ] at hi
          rw [List.take_succ_cons, List.drop_succ_cons]
          exact ih true i' j' pi pj (by omega) hi hj
      · rw [runTrigger, if_neg hc] at hi hj
        rw [List.getElem?_cons_succ] at hj
        cases i with
        | zero => simp at hi
        | succ i' =>
          rw [List.getElem?_cons_succ] at hi
          rw [List.take_succ_cons, List.drop_succ_cons]
          exact ih v i' j' pi pj (by omega) hi hj
    | loadDone =>
      rw [runTrigger] at hi hj
      rw [List.getElem?_cons_succ] at hj
      cases i with
      | zero => simp at hi
      | succ i' =>
        rw [List.getElem?_cons_succ] at hi
        rw [List.take_succ_cons, List.drop_succ_cons]
        exact ih false i' j' pi pj (by omega) hi hj

/-!
### Claim C1
-/

/-- C1: for every sequence of visibility transitions and load completions,
the IncrementalLoadTrigger never invokes `loadMore` a second time while the
in-flight flag (`isValidating`) from a prior call is still true: every
invocation happens with the flag false, and between any two invocations a
load completion must occur — even if the sentinel re-enters the viewport in
between. -/
theorem c1_no_duplicate_load_while_in_flight
    (enable hasLoadMoreCb hasMore v : Bool) (evs : List TEv)
    (i j : Nat) (pi pj : Bool) (hij : i < j)
    (hi : (runTrigger (observerGuard enable hasLoadMoreCb hasMore) v evs)[i]? =
      some (pi, true))
    (hj : (runTrigger (observerGuard enable hasLoadMoreCb hasMore) v evs)[j]? =
      some (pj, true)) :
    pi = false ∧ pj = false ∧ TEv.loadDone ∈ (evs.take j).drop (i + 1) :=
  ⟨runTrigger_fire_flag_false _ evs v i pi hi,
   runTrigger_fire_flag_false _ evs v j pj hj,
   runTrigger_second_fire _ evs v i j pi pj hij hi hj⟩

/-- Witness for C1: a concrete trace where the sentinel enters, the load
completes, and the sentinel re-enters, producing two invocations. -/
theorem c1_no_duplicate_load_while_in_flight_witness :
    (false : Bool) = false ∧ (false : Bool) = false ∧
      TEv.loadDone ∈ (([TEv.visible true, TEv.loadDone, TEv.visible true].take 2).drop 1) :=
  c1_no_duplicate_load_while_in_flight true true true false
    [TEv.visible true, TEv.loadDone, TEv.visible true] 0 2 false false
    (by decide) (by decide) (by decide)

/-!
### Claim C4
-/

/-- C4: whenever `hasMore` is false, or infinite scrolling is disabled, or
no `loadMore` callback exists, the trigger is inert: the observer effect's
guard fails (no observer is created), nothing is observing the sentinel,
the sentinel itself is not rendered when `hasMore` is false, and no run of
the trigger ever invokes `loadMore`. -/
theorem c4_trigger_inert_without_conditions
    (earlyReturn enable hasLoadMoreCb hasMore v : Bool) (evs : List TEv)
    (h : hasMore = false ∨ enable = false ∨ hasLoadMoreCb = false) :
    observerGuard enable hasLoadMoreCb hasMore = false ∧
    observing earlyReturn enable hasLoadMoreCb hasMore = false ∧
    (hasMore = false → sentinelRendered earlyReturn enable hasMore = false) ∧
    ∀ p ∈ runTrigger (observerGuard enable hasLoadMoreCb hasMore) v evs, p.2 = false := by
  have hg : observerGuard enable hasLoadMoreCb hasMore = false := by
    rcases h with h | h | h <;> simp [observerGuard, h]
  refine ⟨hg, ?_, ?_, ?_⟩
  · simp [observing, hg]
  · intro hm; simp [sentinelRendered, hm]
  · rw [hg]; exact runTrigger_inactive v evs

/-- Witness for C4: with `hasMore = false` the guard, the observing state
and every fired flag of a concrete run are all false. -/
theorem c4_trigger_inert_without_conditions_witness :
    observerGuard true true false = false ∧
    observing false true true false = false ∧
    ((false : Bool) = false → sentinelRendered false true false = false) ∧
    ∀ p ∈ runTrigger (observerGuard true true false) false
      [TEv.visible true, TEv.visible true], p.2 = false :=
  c4_trigger_inert_without_conditions false true true false false
    [TEv.visible true, TEv.visible true] (Or.inl rfl)

/-!
### Claim C2
-/

/-- C2: for every nonempty time-ordered sequence of search submissions in
which consecutive submissions are less than 500 ms apart, the trailing-edge
debounce commits exactly one term — the final one; no intermediate term
ever fires. -/
theorem c2_debounce_commits_only_final_term
    (l : List (Nat × String)) (hne : l ≠ [])
    (h : l.Chain' fun a b => b.1 < a.1 + 500) :
    debounceCommits 500 l = [(l.getLast hne).2] := by
  induction l with
  | nil => exact absurd rfl hne
  | cons x rest ih =>
    obtain ⟨t₁, s₁⟩ := x
    cases rest with
    | nil => simp [debounceCommits]
    | cons y rest' =>
      obtain ⟨t₂, s₂⟩ := y
      have hxy : t₂ < t₁ + 500 := (List.chain'_cons.mp h).1
      have htail : ((t₂, s₂) :: rest').Chain' fun a b => b.1 < a.1 + 500 :=
        (List.chain'_cons.mp h).2
      rw [debounceCommits, if_neg (show ¬(t₁ + 500 ≤ t₂) by omega),
        ih (by simp) htail]
      simp [List.getLast_cons]

/-- Witness for C2: two submissions 100 ms apart commit only the second
term. -/
theorem c2_debounce_commits_only_final_term_witness :
    debounceCommits 500 [(0, "a"), (100, "ab")] =
      [(([(0, "a"), (100, "ab")] : List (Nat × String)).getLast (by simp)).2] :=
  c2_debounce_commits_only_final_term [(0, "a"), (100, "ab")] (by simp)
    (by simp [List.chain'_cons])

/-!
### Claim C3

The source disconnects the intersection observer in the effect cleanup
(forms-list lines 95-99), so no `loadMore` call can happen after unmount.
But neither `handleSearch` debounce (forms-list lines 62-69, dashboard
lines 117-122) is ever cancelled — `useMemo` has no cleanup — so a timer
pending at unmount still fires its commit body afterwards.  The claim that
no downstream call occurs after disposal is therefore false.
-/

/-- C3 counterexample: submit a term, unmount while the 500 ms debounce
timer is pending, then let the timer elapse — the debounced commit body
still runs (invoking `onSearch` when supplied), so a downstream call does
occur after disposal, contradicting the claim. -/
theorem c3_dangling_debounce_counterexample :
    callsAfterDispose [CEv.submit "a", CEv.unmount, CEv.timerFire] = [Call.commit "a"] ∧
    callsAfterDispose [CEv.submit "a", CEv.unmount, CEv.timerFire] ≠ [] := by
  constructor
  · rfl
  · decide

theorem stepComp_submit_unmounted (s : CompState) (t : String)
    (hm : s.mounted = false) : stepComp s (CEv.submit t) = (s, []) := by
  simp [stepComp, hm]

theorem stepComp_visible_disconnected (s : CompState) (inter : Bool)
    (ho : s.observerOn = false) : stepComp s (CEv.visible inter) = (s, []) := by
  simp [stepComp, ho, cbFires]

theorem runComp_after_dispose (s : CompState) (evs : List CEv)
    (hm : s.mounted = false) (ho : s.observerOn = false) :
    Call.loadMoreCall ∉ (runComp s evs).flatten ∧
    (s.pending = none → (runComp s evs).flatten = []) := by
  induction evs generalizing s with
  | nil => simp [runComp]
  | cons e rest ih =>
    cases e with
    | submit t =>
      rw [runComp, stepComp_submit_unmounted s t hm]
      have h := ih s hm ho
      exact ⟨by simpa using h.1, fun hp => by simpa using h.2 hp⟩
    | unmount =>
      rw [runComp]
      have h := ih ({ s with mounted := false, observerOn := false }) rfl rfl
      exact ⟨by simpa [stepComp] using h.1, fun hp => by simpa [stepComp] using h.2 hp⟩
    | timerFire =>
      cases hp : s.pending with
      | none =>
        rw [runComp]
        have hstep : stepComp s CEv.timerFire = (s, []) := by simp [stepComp, hp]
        rw [hstep]
        have h := ih s hm ho
        exact ⟨by simpa using h.1, fun _ => by simpa using h.2 hp⟩
      | some t =>
        rw [runComp]
        have hstep : stepComp s CEv.timerFire =
            ({ s with pending := none }, [Call.commit t]) := by simp [stepComp, hp]
        rw [hstep]
        have h := ih ({ s with pending := none }) hm ho
        refine ⟨?_, fun hpn => absurd hpn (by simp)⟩
        simpa using h.1
    | visible inter =>
      rw [runComp, stepComp_visible_disconnected s inter ho]
      have h := ih s hm ho
      exact ⟨by simpa using h.1, fun hp => by simpa using h.2 hp⟩
    | loadDone =>
      rw [runComp]
      have h := ih ({ s with inFlight := false }) hm ho
      exact ⟨by simpa [stepComp] using h.1, fun hp => by simpa [stepComp] using h.2 hp⟩

/-- C3 amended: teardown is a total step that makes no downstream call and
leaves the component unmounted with the observer disconnected; from any
post-disposal state the `loadMore` callback is never invoked again, and if
no debounce timer was pending at disposal no downstream call of any kind
occurs — but a pending debounced commit does still fire (see the
counterexample), since the source never cancels the debounce timer. -/
theorem c3_teardown_amended (s s' : CompState) (evs : List CEv)
    (hm : s.mounted = false) (ho : s.observerOn = false) :
    (stepComp s' CEv.unmount).2 = [] ∧
    (stepComp s' CEv.unmount).1.mounted = false ∧
    (stepComp s' CEv.unmount).1.observerOn = false ∧
    Call.loadMoreCall ∉ (runComp s evs).flatten ∧
    (s.pending = none → (runComp s evs).flatten = []) :=
  ⟨rfl, rfl, rfl, (runComp_after_dispose s evs hm ho).1,
    (runComp_after_dispose s evs hm ho).2⟩

/-- Witness for C3's amended theorem at a concrete post-disposal state and
a concrete trace of timer, visibility and completion events. -/
theorem c3_teardown_amended_witness :
    (stepComp initComp CEv.unmount).2 = [] ∧
    (stepComp initComp CEv.unmount).1.mounted = false ∧
    (stepComp initComp CEv.unmount).1.observerOn = false ∧
    Call.loadMoreCall ∉
      (runComp ⟨false, none, false, false⟩
        [CEv.timerFire, CEv.visible true, CEv.loadDone]).flatten ∧
    ((⟨false, none, false, false⟩ : CompState).pending = none →
      (runComp ⟨false, none, false, false⟩
        [CEv.timerFire, CEv.visible true, CEv.loadDone]).flatten = []) :=
  c3_teardown_amended ⟨false, none, false, false⟩ initComp
    [CEv.timerFire, CEv.visible true, CEv.loadDone] rfl rfl

/-!
### Claim C6
-/

/-- C6: every result item lands in exactly those section buckets whose
matcher list contains its uuid or its name; an item matched by no section's
matchers is in no bucket.  The bucket of a section `sec` of the
configuration is `availableFormsOf sec`, and `sectionsOf` pairs each
configured section with its bucket. -/
theorem c6_section_buckets_by_matchers
    (secs : List FormSection) (fl : List CompletedFormInfo)
    (sec : FormSection) (fi : CompletedFormInfo) (av : List CompletedFormInfo)
    ( _hsec : sec ∈ secs)
    (hav : availableFormsOf sec (some fl) = some av) :
    sectionsOf (some secs) (some fl) =
      some (secs.map fun s => (s, availableFormsOf s (some fl))) ∧
    (fi ∈ av ↔ fi ∈ fl ∧ (fi.form.uuid ∈ sec.forms ∨ fi.form.name ∈ sec.forms)) := by
  constructor
  · rfl
  · have hav' : av = fl.filter (matchesSection sec) := by
      simpa [availableFormsOf] using hav.symm
    subst hav'
    simp only [List.mem_filter, matchesSection, List.any_eq_true, Bool.or_eq_true,
      beq_iff_eq]
    constructor
    · rintro ⟨hmem, fc, hfc, h | h⟩
      · exact ⟨hmem, Or.inl (h ▸ hfc)⟩
      · exact ⟨hmem, Or.inr (h ▸ hfc)⟩
    · rintro ⟨hmem, h | h⟩
      · exact ⟨hmem, fi.form.uuid, h, Or.inl rfl⟩
      · exact ⟨hmem, fi.form.name, h, Or.inr rfl⟩

/-- Witness for C6: the spec's own example — results `a`, `b` and sections
`S1` matching `a`, `S2` matching `b`; the item `a` sits in `S1`'s bucket
exactly because its uuid is matched. -/
theorem c6_section_buckets_by_matchers_witness :
    sectionsOf (some [⟨"S1", ["a"]⟩, ⟨"S2", ["b"]⟩])
        (some [⟨⟨"a", "Form A", none⟩⟩, ⟨⟨"b", "Form B", none⟩⟩]) =
      some (([⟨"S1", ["a"]⟩, ⟨"S2", ["b"]⟩] : List FormSection).map fun s =>
        (s, availableFormsOf s (some [⟨⟨"a", "Form A", none⟩⟩, ⟨⟨"b", "Form B", none⟩⟩]))) ∧
    ((⟨⟨"a", "Form A", none⟩⟩ : CompletedFormInfo) ∈
        ([⟨⟨"a", "Form A", none⟩⟩] : List CompletedFormInfo) ↔
      (⟨⟨"a", "Form A", none⟩⟩ : CompletedFormInfo) ∈
          ([⟨⟨"a", "Form A", none⟩⟩, ⟨⟨"b", "Form B", none⟩⟩] : List CompletedFormInfo) ∧
        ((⟨⟨"a", "Form A", none⟩⟩ : CompletedFormInfo).form.uuid ∈
            (⟨"S1", ["a"]⟩ : FormSection).forms ∨
          (⟨⟨"a", "Form A", none⟩⟩ : CompletedFormInfo).form.name ∈
            (⟨"S1", ["a"]⟩ : FormSection).forms)) :=
  c6_section_buckets_by_matchers [⟨"S1", ["a"]⟩, ⟨"S2", ["b"]⟩]
    [⟨⟨"a", "Form A", none⟩⟩, ⟨⟨"b", "Form B", none⟩⟩]
    ⟨"S1", ["a"]⟩ ⟨⟨"a", "Form A", none⟩⟩ [⟨⟨"a", "Form A", none⟩⟩]
    (by simp) (by simp [availableFormsOf, matchesSection])

/-!
### Claim C7
-/

/-- C7: in Local mode an empty committed term bypasses filtering and
exposes the result set unmodified (including an absent one), and a
non-empty committed term applied to an absent or empty result set yields
the empty list — the guards of `filteredForms`, no error path. -/
theorem c7_empty_term_bypass_and_empty_set
    (term : String) (cf : Option (List CompletedFormInfo)) (h : term ≠ "") :
    filteredForms false "" cf = cf ∧
    filteredForms false term none = some [] ∧
    filteredForms false term (some []) = some [] := by
  refine ⟨?_, ?_, ?_⟩ <;> simp [filteredForms, h]

/-- Witness for C7 at a concrete non-empty term and a one-element result
set. -/
theorem c7_empty_term_bypass_and_empty_set_witness :
    filteredForms false "" (some [⟨⟨"u1", "Form A", none⟩⟩]) =
      some [⟨⟨"u1", "Form A", none⟩⟩] ∧
    filteredForms false "x" none = some [] ∧
    filteredForms false "x" (some []) = some [] :=
  c7_empty_term_bypass_and_empty_set "x" (some [⟨⟨"u1", "Form A", none⟩⟩])
    (by simp)

/-!
### Claim C8
-/

/-- C8: when the configured section list is the empty array and the
dashboard reaches its list-rendering branch (not searching, not in the
empty state), it renders exactly one unsectioned `FormsList` receiving the
full result set — not zero lists. -/
theorem c8_empty_sections_single_unsectioned_list
    (forms : Option (List CompletedFormInfo)) (isLoading isValidating : Bool)
    (h : (formsLenZero forms && !isLoading && !isValidating) = false) :
    renderDashboard false isLoading isValidating forms (some []) =
      .ok (.lists [⟨none, forms⟩]) := by
  rw [renderDashboard]
  rw [if_neg (by simp), if_neg (by simp [h])]
  rfl

/-- Witness for C8 at a concrete nonempty result set. -/
theorem c8_empty_sections_single_unsectioned_list_witness :
    renderDashboard false false false (some [⟨⟨"u1", "Form A", none⟩⟩]) (some []) =
      .ok (.lists [⟨none, some [⟨⟨"u1", "Form A", none⟩⟩]⟩]) :=
  c8_empty_sections_single_unsectioned_list (some [⟨⟨"u1", "Form A", none⟩⟩])
    false false (by simp [formsLenZero])

/-!
### Claim C10
-/

/-- C10: when `config.formSections` is absent (`undefined`) rather than
`[]`, the `sections` computation yields `undefined` (`sectionsOf` is
`none`) and the dashboard's `sections.length` read fails with a type error
instead of falling back to the unsectioned path — provided the render
reaches that read (not searching, not the empty state). -/
theorem c10_absent_form_sections_type_error
    (forms : Option (List CompletedFormInfo)) (isLoading isValidating : Bool)
    (h : (formsLenZero forms && !isLoading && !isValidating) = false) :
    sectionsOf none forms = none ∧
    renderDashboard false isLoading isValidating forms none = .error .typeError := by
  refine ⟨rfl, ?_⟩
  rw [renderDashboard]
  rw [if_neg (by simp), if_neg (by simp [h])]
  rfl

/-- Witness for C10 at a concrete nonempty result set. -/
theorem c10_absent_form_sections_type_error_witness :
    sectionsOf none (some [⟨⟨"u1", "Form A", none⟩⟩]) = none ∧
    renderDashboard false false false (some [⟨⟨"u1", "Form A", none⟩⟩]) none =
      .error .typeError :=
  c10_absent_form_sections_type_error (some [⟨⟨"u1", "Form A", none⟩⟩])
    false false (by simp [formsLenZero])

/-!
### Helper lemmas for the local fuzzy filter (claims C5 and C9)
-/

theorem matchedEntriesAux_score (term : String) (l : List CompletedFormInfo) :
    ∀ n, ∀ e ∈ matchedEntriesAux term n l,
      matchScore term (extractKey e.item) = some e.score := by
  induction l with
  | nil => intro n e he; simp [matchedEntriesAux] at he
  | cons x xs ih =>
    intro n e he
    rw [matchedEntriesAux] at he
    cases hm : matchScore term (extractKey x) with
    | some sc =>
      rw [hm, List.mem_cons] at he
      rcases he with rfl | he'
      · simpa using hm
      · exact ih (n + 1) e he'
    | none =>
      rw [hm] at he
      exact ih (n + 1) e he

theorem matchedEntriesAux_get (term : String) (l : List CompletedFormInfo) :
    ∀ n, ∀ e ∈ matchedEntriesAux term n l,
      ∃ m, e.idx = n + m ∧ l[m]? = some e.item := by
  induction l with
  | nil => intro n e he; simp [matchedEntriesAux] at he
  | cons x xs ih =>
    intro n e he
    rw [matchedEntriesAux] at he
    cases hm : matchScore term (extractKey x) with
    | some sc =>
      rw [hm, List.mem_cons] at he
      rcases he with rfl | he'
      · exact ⟨0, by simp, by simp⟩
      · obtain ⟨m, hidx, hget⟩ := ih (n + 1) e he'
        exact ⟨m + 1, by omega, by simpa using hget⟩
    | none =>
      rw [hm] at he
      obtain ⟨m, hidx, hget⟩ := ih (n + 1) e he
      exact ⟨m + 1, by omega, by simpa using hget⟩

theorem matchedEntriesAux_idx_lb (term : String) (l : List CompletedFormInfo) :
    ∀ n, ∀ e ∈ matchedEntriesAux term n l, n ≤ e.idx := by
  intro n e he
  obtain ⟨m, hidx, _⟩ := matchedEntriesAux_get term l n e he
  omega

theorem matchedEntriesAux_idx_lt (term : String) (l : List CompletedFormInfo) :
    ∀ n, (matchedEntriesAux term n l).Pairwise fun a b => a.idx < b.idx := by
  induction l with
  | nil => intro n; simp [matchedEntriesAux]
  | cons x xs ih =>
    intro n
    rw [matchedEntriesAux]
    cases hm : matchScore term (extractKey x) with
    | some sc =>
      refine List.Pairwise.cons ?_ (ih (n + 1))
      intro e he
      have := matchedEntriesAux_idx_lb term xs (n + 1) e he
      simpa using by omega
    | none => exact ih (n + 1)

theorem reindex_map_item : ∀ (n : Nat) (E : List Entry),
    (reindex n E).map Entry.item = E.map Entry.item := by
  intro n E
  induction E generalizing n with
  | nil => rfl
  | cons e es ih => simp [reindex, ih]

theorem reindex_mem : ∀ (n : Nat) (E : List Entry), ∀ e' ∈ reindex n E,
    n ≤ e'.idx ∧ ∃ e ∈ E, e'.item = e.item ∧ e'.score = e.score := by
  intro n E
  induction E generalizing n with
  | nil => intro e' he'; simp [reindex] at he'
  | cons e es ih =>
    intro e' he'
    rw [reindex, List.mem_cons] at he'
    rcases he' with rfl | he'
    · exact ⟨le_refl n, e, List.mem_cons_self e es, rfl, rfl⟩
    · obtain ⟨hn, e₀, he₀, hitem, hscore⟩ := ih (n + 1) e' he'
      exact ⟨by omega, e₀, List.mem_cons_of_mem e he₀, hitem, hscore⟩

theorem matched_of_all_match (term : String) :
    ∀ (E : List Entry) (n : Nat),
      (∀ e ∈ E, matchScore term (extractKey e.item) = some e.score) →
      matchedEntriesAux term n (E.map Entry.item) = reindex n E := by
  intro E
  induction E with
  | nil => intro n _; rfl
  | cons e es ih =>
    intro n hall
    rw [List.map_cons, matchedEntriesAux,
      hall e (List.mem_cons_self e es), reindex]
    rw [ih (n + 1) fun e' he' => hall e' (List.mem_cons_of_mem e he')]

theorem reindex_sorted :
    ∀ (E : List Entry), (E.Pairwise fun a b => b.score ≤ a.score) →
      ∀ n, (reindex n E).Sorted rkRel := by
  intro E
  induction E with
  | nil => intro _ n; simp [reindex, List.Sorted]
  | cons e es ih =>
    intro h n
    rw [List.pairwise_cons] at h
    rw [reindex]
    refine List.Pairwise.cons ?_ (ih h.2 (n + 1))
    intro e' he'
    obtain ⟨hn, e₀, he₀, hitem, hscore⟩ := reindex_mem (n + 1) es e' he'
    have hle : e'.score ≤ e.score := hscore ▸ h.1 e₀ he₀
    rcases lt_or_eq_of_le hle with hlt | heq
    · exact Or.inl hlt
    · exact Or.inr ⟨heq.symm, Nat.le_of_succ_le hn⟩

theorem sorted_rk_scores (E : List Entry) (h : E.Sorted rkRel) :
    E.Pairwise fun a b => b.score ≤ a.score := by
  refine h.imp fun hab => ?_
  rcases hab with hlt | ⟨heq, _⟩
  · exact le_of_lt hlt
  · exact le_of_eq heq.symm

theorem insertionSort_rs_of_sorted_rk (E : List Entry) (h : E.Sorted rkRel) :
    List.insertionSort rsRel E = E := by
  refine List.Sorted.insertionSort_eq ?_
  refine h.imp fun hab => ?_
  rcases hab with hlt | ⟨heq, _⟩
  · exact le_of_lt hlt
  · exact le_of_eq heq.symm

theorem fuzzyFilterRanked_sorted (term : String) (l : List CompletedFormInfo) :
    (fuzzyFilterRanked term l).Sorted rkRel :=
  List.sorted_insertionSort rkRel (matchedEntries term l)

theorem fuzzyFilterRanked_score (term : String) (l : List CompletedFormInfo) :
    ∀ e ∈ fuzzyFilterRanked term l,
      matchScore term (extractKey e.item) = some e.score :=
  fun e he =>
    matchedEntriesAux_score term l 0 e
      ((List.perm_insertionSort rkRel (matchedEntries term l)).subset he)

theorem localPipeline_eq_ranked (term : String) (l : List CompletedFormInfo) :
    localPipeline term l = (fuzzyFilterRanked term l).map Entry.item := by
  unfold localPipeline
  rw [insertionSort_rs_of_sorted_rk _ (fuzzyFilterRanked_sorted term l)]

theorem localPipeline_idem (term : String) (l : List CompletedFormInfo) :
    localPipeline term (localPipeline term l) = localPipeline term l := by
  have hS := fuzzyFilterRanked_sorted term l
  have hout := localPipeline_eq_ranked term l
  have hmatched : matchedEntries term (localPipeline term l) =
      reindex 0 (fuzzyFilterRanked term l) := by
    rw [hout]
    exact matched_of_all_match term _ 0 (fuzzyFilterRanked_score term l)
  have hsorted : (reindex 0 (fuzzyFilterRanked term l)).Sorted rkRel :=
    reindex_sorted _ (sorted_rk_scores _ hS) 0
  have h1 : fuzzyFilterRanked term (localPipeline term l) =
      reindex 0 (fuzzyFilterRanked term l) := by
    unfold fuzzyFilterRanked
    rw [hmatched]
    exact List.Sorted.insertionSort_eq hsorted
  rw [localPipeline_eq_ranked term (localPipeline term l), h1, reindex_map_item,
    ← hout]

/-!
### Claim C5
-/

/-- C5: for every non-empty committed term in Local mode, the filter output
is exactly the map-to-item of `fuzzyFilterRanked` — the fuzzy matches of
the term against each item's display name (falling back to its name),
sorted by score descending with ties kept in original order: the ranked
list is a permutation of the matched entries, is sorted by
(score descending, original index ascending), every matched entry carries
the true fuzzy score of its item's key and its true position in the input,
and original indices are strictly increasing across the matched entries. -/
theorem c5_local_filter_is_ranked_fuzzy_matches
    (term : String) (l : List CompletedFormInfo) (e : Entry)
    (h : term ≠ "") (he : e ∈ matchedEntries term l) :
    filteredForms false term (some l) =
      some ((fuzzyFilterRanked term l).map Entry.item) ∧
    (fuzzyFilterRanked term l).Perm (matchedEntries term l) ∧
    (fuzzyFilterRanked term l).Sorted rkRel ∧
    matchScore term (extractKey e.item) = some e.score ∧
    l[e.idx]? = some e.item ∧
    ((matchedEntries term l).Pairwise fun a b => a.idx < b.idx) := by
  refine ⟨?_, List.perm_insertionSort rkRel (matchedEntries term l),
    fuzzyFilterRanked_sorted term l, matchedEntriesAux_score term l 0 e he,
    ?_, matchedEntriesAux_idx_lt term l 0⟩
  · cases l with
    | nil =>
      simp [filteredForms, h, fuzzyFilterRanked, matchedEntries, matchedEntriesAux]
    | cons x xs =>
      rw [show filteredForms false term (some (x :: xs)) =
          some (localPipeline term (x :: xs)) by simp [filteredForms, h]]
      rw [localPipeline_eq_ranked]
  · obtain ⟨m, hidx, hget⟩ := matchedEntriesAux_get term l 0 e he
    rw [hidx]
    simpa using hget

/-- Witness for C5: the term `"a"` matched against a single form named
`"Alpha"` produces the single entry at index 0 with fuzzy score 1. -/
theorem c5_local_filter_is_ranked_fuzzy_matches_witness :
    filteredForms false "a" (some [⟨⟨"u1", "Alpha", none⟩⟩]) =
      some ((fuzzyFilterRanked "a" [⟨⟨"u1", "Alpha", none⟩⟩]).map Entry.item) ∧
    (fuzzyFilterRanked "a" [⟨⟨"u1", "Alpha", none⟩⟩]).Perm
      (matchedEntries "a" [⟨⟨"u1", "Alpha", none⟩⟩]) ∧
    (fuzzyFilterRanked "a" [⟨⟨"u1", "Alpha", none⟩⟩]).Sorted rkRel ∧
    matchScore "a" (extractKey (⟨0, ⟨⟨"u1", "Alpha", none⟩⟩, 1⟩ : Entry).item) =
      some (⟨0, ⟨⟨"u1", "Alpha", none⟩⟩, 1⟩ : Entry).score ∧
    ([⟨⟨"u1", "Alpha", none⟩⟩] :
        List CompletedFormInfo)[(⟨0, ⟨⟨"u1", "Alpha", none⟩⟩, 1⟩ : Entry).idx]? =
      some (⟨0, ⟨⟨"u1", "Alpha", none⟩⟩, 1⟩ : Entry).item ∧
    ((matchedEntries "a" [⟨⟨"u1", "Alpha", none⟩⟩]).Pairwise
      fun a b => a.idx < b.idx) :=
  c5_local_filter_is_ranked_fuzzy_matches "a" [⟨⟨"u1", "Alpha", none⟩⟩]
    ⟨0, ⟨⟨"u1", "Alpha", none⟩⟩, 1⟩ (by decide)
    (by
      rw [show matchedEntries "a" [⟨⟨"u1", "Alpha", none⟩⟩] =
        [⟨0, ⟨⟨"u1", "Alpha", none⟩⟩, 1⟩] from rfl]
      exact List.mem_singleton.mpr rfl)

/-!
### Claim C9
-/

/-- C9: the Local-mode filter is deterministic (it is a pure function of
the committed term and the result set) and idempotent: re-applying
`filteredForms` to its own output under the same committed term returns
that output unchanged — identical elements in identical order — in every
case, including the empty-term bypass and the absent/empty result set. -/
theorem c9_local_filter_idempotent
    (term : String) (cf : Option (List CompletedFormInfo)) :
    filteredForms false term (filteredForms false term cf) =
      filteredForms false term cf := by
  by_cases hterm : term = ""
  · subst hterm; simp [filteredForms]
  · cases cf with
    | none => simp [filteredForms, hterm]
    | some l =>
      cases l with
      | nil => simp [filteredForms, hterm]
      | cons x xs =>
        have hin : filteredForms false term (some (x :: xs)) =
            some (localPipeline term (x :: xs)) := by
          simp [filteredForms, hterm]
        rw [hin]
        cases hout : localPipeline term (x :: xs) with
        | nil => simp [filteredForms, hterm]
        | cons y ys =>
          have hstep : filteredForms false term (some (y :: ys)) =
              some (localPipeline term (y :: ys)) := by
            simp [filteredForms, hterm]
          rw [hstep, ← hout, localPipeline_idem]

end FormsApp
